import Mathlib

/-!
Verification development for the blackjack decision-support engine
(`src/lib/blackjack.ts`).  The engine is embedded shallowly: JavaScript
numbers are modelled as exact rationals (`ℚ`), card counts as natural
numbers, in-place mutation of freshly allocated arrays as functional
update, and the per-call memo `Map`s as explicitly threaded association
lists.  Recursions that the source bounds by shoe exhaustion are given a
fuel argument equal to the number of cards remaining, which is exactly
the depth the source can reach (every recursive step removes one card).
-/

namespace Blackjack

/-- The 13 card ranks, in the order of the source's `RANKS` array. -/
inductive Rank where
  | ace | two | three | four | five | six | seven | eight | nine
  | ten | jack | queen | king
  deriving DecidableEq, Repr, Inhabited

/-- The `RANKS` constant: iteration order of every per-rank loop. -/
def RANKS : List Rank :=
  [.ace, .two, .three, .four, .five, .six, .seven, .eight, .nine,
   .ten, .jack, .queen, .king]

/-- Player actions (second engine version, surrender included). -/
inductive Action where
  | hit | stand | double | split | surrender
  deriving DecidableEq, Repr, Inhabited

/-- The `TEN_RANKS` constant. -/
def TEN_RANKS : List Rank := [.ten, .jack, .queen, .king]

/-- `rankValue`: ace counts 11, ten/face cards 10, else face value. -/
def rankValue (rank : Rank) : ℕ :=
  if rank = .ace then 11
  else if rank ∈ TEN_RANKS then 10
  else match rank with
    | .two => 2 | .three => 3 | .four => 4 | .five => 5 | .six => 6
    | .seven => 7 | .eight => 8 | .nine => 9
    | _ => 0

/-- Hi-Lo tag per rank (`HI_LO_TAGS`). -/
def hiLoTag (rank : Rank) : ℤ :=
  match rank with
  | .ace => -1
  | .two | .three | .four | .five | .six => 1
  | .seven | .eight | .nine => 0
  | .ten | .jack | .queen | .king => -1

/-- Raw rule set as supplied by a caller (`Rules`); optional fields are
`Option`, numeric fields are arbitrary rationals as JS numbers are. -/
structure Rules where
  decks : ℚ
  dealerHitsSoft17 : Bool
  doubleAfterSplit : Bool
  blackjackPayout : ℚ
  lateSurrender : Option Bool := none
  maxSplitHands : Option ℚ := none
  resplitAces : Option Bool := none
  hitSplitAces : Option Bool := none
  doubleAnyTwo : Option Bool := none
  deriving DecidableEq, Repr

/-- `NormalizedRules`: every optional field defaulted, numbers floored. -/
structure NormalizedRules where
  decks : ℕ
  dealerHitsSoft17 : Bool
  doubleAfterSplit : Bool
  blackjackPayout : ℚ
  lateSurrender : Bool
  maxSplitHands : ℕ
  resplitAces : Bool
  hitSplitAces : Bool
  doubleAnyTwo : Bool
  deriving DecidableEq, Repr

/-- `normalizeRules`. -/
def normalizeRules (rules : Rules) : NormalizedRules where
  decks := (max 1 ⌊rules.decks⌋).toNat
  dealerHitsSoft17 := rules.dealerHitsSoft17
  doubleAfterSplit := rules.doubleAfterSplit
  blackjackPayout := rules.blackjackPayout
  lateSurrender := rules.lateSurrender.getD true
  maxSplitHands := (min 4 (max 2 ⌊(rules.maxSplitHands.getD 2)⌋)).toNat
  resplitAces := rules.resplitAces.getD false
  hitSplitAces := rules.hitSplitAces.getD false
  doubleAnyTwo := rules.doubleAnyTwo.getD true

/-- A shoe composition: remaining count per rank (the source's
`number[]` indexed through `RANK_TO_INDEX`). -/
abbrev ShoeCounts := Rank → ℕ

/-- `toShoeCounts`: 4 × decks of every rank. -/
def toShoeCounts (decks : ℕ) : ShoeCounts := fun _ => 4 * decks

/-- `removeCard`: fails (returning `false` and the untouched counts) when
the rank is exhausted, otherwise decrements exactly that rank. -/
def removeCard (counts : ShoeCounts) (rank : Rank) : Bool × ShoeCounts :=
  if counts rank ≤ 0 then (false, counts)
  else (true, Function.update counts rank (counts rank - 1))

/-- `countTotalCards`: total cards remaining in the shoe. -/
def countTotal (counts : ShoeCounts) : ℕ :=
  (RANKS.map counts).sum

/-- One branch of a draw loop: the drawn rank's count decremented
(the source's `next[ri] -= 1` on a fresh clone). -/
def decCount (counts : ShoeCounts) (rank : Rank) : ShoeCounts :=
  Function.update counts rank (counts rank - 1)

/-- A hand's derived value: reduced total and soft flag. -/
structure HandValue where
  total : ℕ
  soft : Bool
  deriving DecidableEq, Repr

/-- The ace-reduction loop of `handValue`: while the running total
exceeds 21 and an ace still counts 11, convert one ace from 11 to 1. -/
def reduceAces : ℕ → ℕ → ℕ × ℕ
  | total, 0 => (total, 0)
  | total, aces + 1 =>
    if 21 < total then reduceAces (total - 10) aces else (total, aces + 1)

/-- `handValue`: sum every card (aces as 11), then reduce aces while the
total busts; soft iff an ace still counts 11. -/
def handValue (cards : List Rank) : HandValue :=
  let raw := (cards.map rankValue).sum
  let aces := cards.count Rank.ace
  let reduced := reduceAces raw aces
  ⟨reduced.1, decide (0 < reduced.2)⟩

/-- `isBlackjack`: exactly two cards, one ace and one ten-valued card. -/
def isBlackjack (cards : List Rank) : Bool :=
  decide (cards.length = 2 ∧ Rank.ace ∈ cards ∧ ∃ c ∈ cards, c ∈ TEN_RANKS)

/-- The pair test of the aggregator:
`playerCards.length === 2 && playerCards[0] === playerCards[1]`. -/
def isPair : List Rank → Bool
  | [a, b] => decide (a = b)
  | _ => false

/-- Dealer outcome distribution.  The source's nested `totals` record
(keys 17–21) is flattened into the five fields `t17`–`t21`. -/
structure DealerDistribution where
  blackjack : ℚ
  bust : ℚ
  t17 : ℚ
  t18 : ℚ
  t19 : ℚ
  t20 : ℚ
  t21 : ℚ
  deriving DecidableEq, Repr

/-- `emptyDealerDistribution`. -/
def emptyDealerDistribution : DealerDistribution :=
  ⟨0, 0, 0, 0, 0, 0, 0⟩

/-- The point distribution `totals[n] = 1` (n is in 17–21 at every
reachable assignment; other indices yield the empty distribution). -/
def unitTotal (n : ℕ) : DealerDistribution :=
  match n with
  | 17 => { emptyDealerDistribution with t17 := 1 }
  | 18 => { emptyDealerDistribution with t18 := 1 }
  | 19 => { emptyDealerDistribution with t19 := 1 }
  | 20 => { emptyDealerDistribution with t20 := 1 }
  | 21 => { emptyDealerDistribution with t21 := 1 }
  | _ => emptyDealerDistribution

/-- The point distribution `blackjack = 1`. -/
def unitBlackjack : DealerDistribution :=
  { emptyDealerDistribution with blackjack := 1 }

/-- The point distribution `bust = 1`. -/
def unitBust : DealerDistribution :=
  { emptyDealerDistribution with bust := 1 }

/-- `addDealerDistribution target addition factor`:
`target.f + addition.f * factor` field-wise. -/
def addDealerDistribution (target addition : DealerDistribution)
    (factor : ℚ) : DealerDistribution where
  blackjack := target.blackjack + addition.blackjack * factor
  bust := target.bust + addition.bust * factor
  t17 := target.t17 + addition.t17 * factor
  t18 := target.t18 + addition.t18 * factor
  t19 := target.t19 + addition.t19 * factor
  t20 := target.t20 + addition.t20 * factor
  t21 := target.t21 + addition.t21 * factor

/-- Total probability mass of a dealer distribution: the six spec
outcomes (blackjack, bust, totals 17–21). -/
def distributionMass (d : DealerDistribution) : ℚ :=
  d.blackjack + d.bust + d.t17 + d.t18 + d.t19 + d.t20 + d.t21

/-- Per-action evaluation: expected value, win and loss probability. -/
structure EvalResult where
  ev : ℚ
  winProb : ℚ
  lossProb : ℚ
  deriving DecidableEq, Repr

/-- The `(17, p17) … (21, p21)` pairs iterated by `DEALER_TOTALS`. -/
def dealerTotalsList (d : DealerDistribution) : List (ℕ × ℚ) :=
  [(17, d.t17), (18, d.t18), (19, d.t19), (20, d.t20), (21, d.t21)]

/-- `resolveHandAgainstDealerDistribution`: settlement of a finished
player hand against a dealer distribution. -/
def resolveHandAgainstDealerDistribution (playerCards : List Rank)
    (stake blackjackPayout : ℚ) (blackjackEligible : Bool)
    (dealerDist : DealerDistribution) : EvalResult :=
  let value := handValue playerCards
  if 21 < value.total then ⟨-stake, 0, 1⟩
  else if blackjackEligible = true ∧ isBlackjack playerCards = true then
    ⟨dealerDist.blackjack * 0 +
       (1 - dealerDist.blackjack) * stake * blackjackPayout,
     1 - dealerDist.blackjack, 0⟩
  else
    let base : ℚ × ℚ × ℚ :=
      (dealerDist.blackjack * (-stake) + dealerDist.bust * stake,
       dealerDist.bust, dealerDist.blackjack)
    let folded := (dealerTotalsList dealerDist).foldl
      (fun acc tp =>
        if tp.2 ≤ 0 then acc
        else if tp.1 < value.total then
          (acc.1 + tp.2 * stake, acc.2.1 + tp.2, acc.2.2)
        else if value.total < tp.1 then
          (acc.1 + tp.2 * (-stake), acc.2.1, acc.2.2 + tp.2)
        else acc) base
    ⟨folded.1, folded.2.1, folded.2.2⟩

/-- `RISK_AVERSION_WEIGHT` (λ = 0.10). -/
def RISK_AVERSION_WEIGHT : ℚ := 1 / 10

/-- `surrenderEvalResult`: closed-form surrender evaluation. -/
def surrenderEvalResult (dealerDist : DealerDistribution) : EvalResult :=
  ⟨-(1 / 2) - 1 / 2 * dealerDist.blackjack, 0, dealerDist.blackjack⟩

/-- `canDoubleNow`: double flag set, exactly two cards, and either
`doubleAnyTwo` or a hand value of 9–11. -/
def canDoubleNow (cards : List Rank) (canDoubleFlag : Bool)
    (rules : NormalizedRules) : Bool :=
  if canDoubleFlag = false ∨ cards.length ≠ 2 then false
  else if rules.doubleAnyTwo then true
  else decide (9 ≤ (handValue cards).total ∧ (handValue cards).total ≤ 11)

/-- Memo key of `dealerDistributionFromKnownCards`: the canonical
hand-shape key (`handStateKey`) together with the full composition
(`countsKey`, rendered as the list of the 13 counts) and the rule
flag. -/
structure DealerKey where
  len : ℕ
  total : ℕ
  soft : Bool
  bj : Bool
  countsList : List ℕ
  h17 : Bool
  deriving DecidableEq, Repr

/-- The dealer memo `Map`, threaded explicitly. -/
abbrev DealerMemo := List (DealerKey × DealerDistribution)

/-- Association-list lookup (the `Map.get` of a memo). -/
def memoFind {K V : Type} [DecidableEq K] (k : K) :
    List (K × V) → Option V
  | [] => none
  | kv :: rest => if k = kv.1 then some kv.2 else memoFind k rest

/-- Association-list insert (the `Map.set` of a memo). -/
def memoSet {K V : Type} (k : K) (v : V) (m : List (K × V)) :
    List (K × V) :=
  (k, v) :: m

/-- Memo key for a dealer hand over a composition. -/
def mkDealerKey (dealerCards : List Rank) (counts : ShoeCounts)
    (dealerHitsSoft17 : Bool) : DealerKey :=
  let value := handValue dealerCards
  ⟨dealerCards.length, value.total, value.soft, isBlackjack dealerCards,
   RANKS.map counts, dealerHitsSoft17⟩

/-- The per-rank accumulation loop shared by
`dealerDistributionFromKnownCards` and `computeDealerDistribution`:
for every rank with a positive count, obtain the child distribution
(threading the memo) and add it weighted by `count / totalCards`. -/
def dealerBranchFold (counts : ShoeCounts) (totalCards : ℕ)
    (child : Rank → DealerMemo → DealerDistribution × DealerMemo)
    (init : DealerDistribution × DealerMemo) (l : List Rank) :
    DealerDistribution × DealerMemo :=
  l.foldl
    (fun acc r =>
      if 0 < counts r then
        let next := child r acc.2
        (addDealerDistribution acc.1 next.1
           ((counts r : ℚ) / (totalCards : ℚ)), next.2)
      else acc)
    init

/-- `dealerDistributionFromKnownCards`, fuel-indexed.  The fuel is the
number of cards remaining in the composition at the call (each recursive
draw removes exactly one card, so this is the exact recursion depth of
the source); the fuel-0 non-exhausted case is unreachable under that
discipline. -/
def dealerDistGo (fuel : ℕ) (dealerCards : List Rank)
    (counts : ShoeCounts) (dealerHitsSoft17 : Bool) (memo : DealerMemo) :
    DealerDistribution × DealerMemo :=
  let key := mkDealerKey dealerCards counts dealerHitsSoft17
  match memoFind key memo with
  | some cached => (cached, memo)
  | none =>
    let value := handValue dealerCards
    if dealerCards.length = 2 ∧ isBlackjack dealerCards = true then
      (unitBlackjack, memoSet key unitBlackjack memo)
    else if 21 < value.total then
      (unitBust, memoSet key unitBust memo)
    else if 17 < value.total ∨
        (value.total = 17 ∧ (value.soft = false ∨ dealerHitsSoft17 = false)) then
      (unitTotal value.total, memoSet key (unitTotal value.total) memo)
    else if countTotal counts = 0 then
      let d := unitTotal (min 21 (max 17 value.total))
      (d, memoSet key d memo)
    else
      match fuel with
      | 0 =>
        -- Unreachable when the fuel equals the cards remaining.
        let d := unitTotal (min 21 (max 17 value.total))
        (d, memoSet key d memo)
      | fuel' + 1 =>
        let folded := dealerBranchFold counts (countTotal counts)
          (fun r m =>
            dealerDistGo fuel' (dealerCards ++ [r]) (decCount counts r)
              dealerHitsSoft17 m)
          (emptyDealerDistribution, memo) RANKS
        (folded.1, memoSet key folded.1 folded.2)

/-- `dealerDistributionFromKnownCards`: exact recursive enumeration of
the dealer's remaining draws, threading the memo. -/
def dealerDistributionFromKnownCards (dealerCards : List Rank)
    (counts : ShoeCounts) (dealerHitsSoft17 : Bool) (memo : DealerMemo) :
    DealerDistribution × DealerMemo :=
  dealerDistGo (countTotal counts) dealerCards counts dealerHitsSoft17 memo

/-- `computeDealerDistribution`: enumerate the hole card from the
current composition with a fresh memo; an exhausted composition falls
back to the point distribution at 17. -/
def computeDealerDistribution (dealerUpcard : Rank)
    (counts : ShoeCounts) (dealerHitsSoft17 : Bool) : DealerDistribution :=
  if countTotal counts = 0 then unitTotal 17
  else
    (dealerBranchFold counts (countTotal counts)
      (fun r m =>
        dealerDistributionFromKnownCards [dealerUpcard, r]
          (decCount counts r) dealerHitsSoft17 m)
      (emptyDealerDistribution, ([] : DealerMemo)) RANKS).1

/-! ### Optimal hand solver -/

/-- Memo key of `solveOptimalHand`: the canonical hand-shape key plus
the three option flags — deliberately no shoe counts. -/
structure HandKey where
  len : ℕ
  total : ℕ
  soft : Bool
  bj : Bool
  canDouble : Bool
  blackjackEligible : Bool
  allowHit : Bool
  deriving DecidableEq, Repr

/-- The hand memo `Map`, threaded explicitly. -/
abbrev HandMemo := List (HandKey × EvalResult)

/-- The `options` record of `solveOptimalHand`. -/
structure SolveOptions where
  canDouble : Bool
  blackjackEligible : Bool
  allowHit : Bool
  deriving DecidableEq, Repr

/-- `solveOptimalHand`, fuel-indexed (fuel = cards remaining; each hit
branch removes one card, so the fuel-0 branch-with-cards case is
unreachable).  Expectimax over stand/hit/double against the fixed dealer
distribution, memoised on hand shape and flags only. -/
def solveOptimalHandGo (fuel : ℕ) (cards : List Rank)
    (counts : ShoeCounts) (dealerDist : DealerDistribution)
    (rules : NormalizedRules) (handMemo : HandMemo)
    (opts : SolveOptions) : EvalResult × HandMemo :=
  let value := handValue cards
  if 21 < value.total then (⟨-1, 0, 1⟩, handMemo)
  else if value.total = 21 then
    (resolveHandAgainstDealerDistribution cards 1 rules.blackjackPayout
      opts.blackjackEligible dealerDist, handMemo)
  else
    let memoKey : HandKey :=
      ⟨cards.length, value.total, value.soft, isBlackjack cards,
       opts.canDouble, opts.blackjackEligible, opts.allowHit⟩
    match memoFind memoKey handMemo with
    | some cached => (cached, handMemo)
    | none =>
      let standEval := resolveHandAgainstDealerDistribution cards 1
        rules.blackjackPayout opts.blackjackEligible dealerDist
      let totalCards := countTotal counts
      let afterHit :=
        if opts.allowHit = true ∧ 0 < totalCards then
          match fuel with
          | 0 => (standEval, handMemo)
          | fuel2 + 1 =>
            let folded := RANKS.foldl
              (fun (acc : (ℚ × ℚ × ℚ) × HandMemo) r =>
                if 0 < counts r then
                  let prob := (counts r : ℚ) / (totalCards : ℚ)
                  let nextCards := cards ++ [r]
                  if 21 < (handValue nextCards).total then
                    ((acc.1.1 + prob * (-1), acc.1.2.1,
                      acc.1.2.2 + prob), acc.2)
                  else
                    let sub := solveOptimalHandGo fuel2 nextCards
                      (decCount counts r) dealerDist rules acc.2
                      ⟨false, false, true⟩
                    ((acc.1.1 + prob * sub.1.ev,
                      acc.1.2.1 + prob * sub.1.winProb,
                      acc.1.2.2 + prob * sub.1.lossProb), sub.2)
                else acc)
              ((0, 0, 0), handMemo)
            (if standEval.ev < folded.1.1 then
              ⟨folded.1.1, folded.1.2.1, folded.1.2.2⟩
             else standEval, folded.2)
        else (standEval, handMemo)
      let best :=
        if canDoubleNow cards opts.canDouble rules = true ∧ 0 < totalCards then
          let dAcc := RANKS.foldl
            (fun (acc : ℚ × ℚ × ℚ) r =>
              if 0 < counts r then
                let prob := (counts r : ℚ) / (totalCards : ℚ)
                let resolved := resolveHandAgainstDealerDistribution
                  (cards ++ [r]) 2 rules.blackjackPayout false dealerDist
                (acc.1 + prob * resolved.ev, acc.2.1 + prob * resolved.winProb,
                 acc.2.2 + prob * resolved.lossProb)
              else acc)
            (0, 0, 0)
          if afterHit.1.ev < dAcc.1 then ⟨dAcc.1, dAcc.2.1, dAcc.2.2⟩
          else afterHit.1
        else afterHit.1
      (best, memoSet memoKey best afterHit.2)

/-- `solveOptimalHand`: the fuel is the exact number of cards that can
still be drawn. -/
def solveOptimalHand (cards : List Rank) (counts : ShoeCounts)
    (dealerDist : DealerDistribution) (rules : NormalizedRules)
    (handMemo : HandMemo) (opts : SolveOptions) : EvalResult × HandMemo :=
  solveOptimalHandGo (countTotal counts) cards counts dealerDist rules
    handMemo opts

/-- `evalSplitAction`: analytic split evaluation — one solver call per
re-draw rank with a fresh memo threaded across the branches; the
single-hand EV is doubled, win/loss probabilities are clamped to 1. -/
def evalSplitAction (pairCard : Rank) (baseCounts : ShoeCounts)
    (dealerDist : DealerDistribution) (rules : NormalizedRules) :
    EvalResult :=
  let totalCards := countTotal baseCounts
  if totalCards = 0 then ⟨0, 0, 1⟩
  else
    let splitAcesLimited := pairCard = Rank.ace ∧ rules.hitSplitAces = false
    let folded := RANKS.foldl
      (fun (acc : (ℚ × ℚ × ℚ) × HandMemo) r =>
        if 0 < baseCounts r then
          let prob := (baseCounts r : ℚ) / (totalCards : ℚ)
          let res := solveOptimalHand [pairCard, r] (decCount baseCounts r)
            dealerDist rules acc.2
            ⟨rules.doubleAfterSplit, false, decide (¬ splitAcesLimited)⟩
          ((acc.1.1 + prob * res.1.ev, acc.1.2.1 + prob * res.1.winProb,
            acc.1.2.2 + prob * res.1.lossProb), res.2)
        else acc)
      ((0, 0, 0), ([] : HandMemo))
    ⟨folded.1.1 * 2, min 1 folded.1.2.1, min 1 folded.1.2.2⟩

/-! ### Decision aggregator -/

/-- A per-action evaluation as stored in `valueByAction`: the EV may be
the sentinel `-∞` (`⊥`) for an unavailable action. -/
structure AggEval where
  ev : WithBot ℚ
  winProb : ℚ
  lossProb : ℚ

/-- Lift a finite evaluation into the aggregator map. -/
def aggOf (e : EvalResult) : AggEval :=
  ⟨(e.ev : WithBot ℚ), e.winProb, e.lossProb⟩

/-- The default read of `valueByAction` in the output loop:
`{ ev: -Infinity, winProb: 0, lossProb: 1 }`. -/
def aggDefault : AggEval := ⟨⊥, 0, 1⟩

/-- The risk-adjusted score `EV − λ × lossProb` of an aggregator entry
(`-∞` stays `-∞`, as in JS arithmetic). -/
def safeScore (e : AggEval) : WithBot ℚ :=
  WithBot.map (fun q => q - RISK_AVERSION_WEIGHT * e.lossProb) e.ev

/-- `DecisionInput`. -/
structure DecisionInput where
  playerCards : List Rank
  dealerUpcard : Option Rank
  tableSeenCards : List Rank
  rules : Rules
  trials : Option ℚ := none

/-- `DecisionResult`; the partial per-action records are functions into
`Option`, absent actions mapping to `none`. -/
structure DecisionResult where
  valid : Bool
  message : Option String
  runningCount : ℤ
  trueCount : ℚ
  decksRemaining : ℚ
  evByAction : Action → Option (WithBot ℚ)
  winRateByAction : Action → Option ℚ
  lossRateByAction : Action → Option ℚ
  recommendedAction : Option Action
  safeRecommendedAction : Option Action

/-- The `emptyResult` builder of `calculateDecision`: invalid flag, the
message, zeroed counts, `decksRemaining` set to the normalized deck
count, and empty per-action maps. -/
def emptyResult (rules : NormalizedRules) (message : String) :
    DecisionResult where
  valid := false
  message := some message
  runningCount := 0
  trueCount := 0
  decksRemaining := (rules.decks : ℚ)
  evByAction := fun _ => none
  winRateByAction := fun _ => none
  lossRateByAction := fun _ => none
  recommendedAction := none
  safeRecommendedAction := none

/-- The observed-card removal loop: remove every card in order from the
shoe, accumulating the Hi-Lo running count; fail if a removal fails. -/
def removeObserved : List Rank → ShoeCounts → ℤ →
    Option (ShoeCounts × ℤ)
  | [], counts, runningCount => some (counts, runningCount)
  | card :: rest, counts, runningCount =>
    let res := removeCard counts card
    if res.1 then removeObserved rest res.2 (runningCount + hiLoTag card)
    else none

/-- The action list built by the aggregator: stand/hit/double always,
split for a pair under `maxSplitHands ≥ 2`, surrender for a two-card
hand under `lateSurrender`. -/
def decisionActions (playerCards : List Rank) (rules : NormalizedRules) :
    List Action :=
  [.stand, .hit, .double] ++
    (if isPair playerCards = true ∧ 2 ≤ rules.maxSplitHands then [.split]
     else []) ++
    (if rules.lateSurrender = true ∧ playerCards.length = 2 then
      [.surrender]
     else [])

/-- The `reduce` used for both recommendations: keep the incumbent
unless the current element scores strictly higher. -/
def reduceBest {α β : Type} [LT β] [DecidableRel (fun a b : β => a < b)]
    (f : α → β) (init : α) (l : List α) : α :=
  l.foldl (fun best cur => if f best < f cur then cur else best) init

/-- The HIT evaluation of the aggregator: weighted average of the solver
value over every next card, sharing one hand memo across branches. -/
def hitEvaluation (playerCards : List Rank) (baseCounts : ShoeCounts)
    (dealerDist : DealerDistribution) (rules : NormalizedRules) :
    EvalResult :=
  let totalCards := countTotal baseCounts
  let folded := RANKS.foldl
    (fun (acc : (ℚ × ℚ × ℚ) × HandMemo) r =>
      if 0 < baseCounts r then
        let prob := (baseCounts r : ℚ) / (totalCards : ℚ)
        let nextCards := playerCards ++ [r]
        if 21 < (handValue nextCards).total then
          ((acc.1.1 + prob * (-1), acc.1.2.1, acc.1.2.2 + prob), acc.2)
        else
          let sub := solveOptimalHand nextCards (decCount baseCounts r)
            dealerDist rules acc.2 ⟨false, false, true⟩
          ((acc.1.1 + prob * sub.1.ev, acc.1.2.1 + prob * sub.1.winProb,
            acc.1.2.2 + prob * sub.1.lossProb), sub.2)
      else acc)
    ((0, 0, 0), ([] : HandMemo))
  ⟨folded.1.1, folded.1.2.1, folded.1.2.2⟩

/-- The DOUBLE evaluation of the aggregator: weighted average over the
next card of resolving at stake 2 against the fixed distribution. -/
def doubleEvaluation (playerCards : List Rank) (baseCounts : ShoeCounts)
    (dealerDist : DealerDistribution) (rules : NormalizedRules) :
    EvalResult :=
  let totalCards := countTotal baseCounts
  let folded := RANKS.foldl
    (fun (acc : ℚ × ℚ × ℚ) r =>
      if 0 < baseCounts r then
        let prob := (baseCounts r : ℚ) / (totalCards : ℚ)
        let resolved := resolveHandAgainstDealerDistribution
          (playerCards ++ [r]) 2 rules.blackjackPayout false dealerDist
        (acc.1 + prob * resolved.ev, acc.2.1 + prob * resolved.winProb,
         acc.2.2 + prob * resolved.lossProb)
      else acc)
    (0, 0, 0)
  ⟨folded.1, folded.2.1, folded.2.2⟩

/-- A point update of the `valueByAction` map. -/
def mapSet (m : Action → Option AggEval) (k : Action) (v : AggEval) :
    Action → Option AggEval :=
  fun a => if a = k then some v else m a

/-- The success path of `calculateDecision` after the validity gates:
counts, dealer distribution, per-action evaluation, output maps and the
two recommendations. -/
def decisionCore (playerCards : List Rank) (dealerUpcard : Rank)
    (baseCounts : ShoeCounts) (runningCount : ℤ)
    (rules : NormalizedRules) : DecisionResult :=
  let cardsRemaining := countTotal baseCounts
  let decksRemaining : ℚ := (cardsRemaining : ℚ) / 52
  let trueCount : ℚ :=
    if 0 < decksRemaining then (runningCount : ℚ) / decksRemaining else 0
  let dealerDist := computeDealerDistribution dealerUpcard baseCounts
    rules.dealerHitsSoft17
  let actions := decisionActions playerCards rules
  let vba0 : Action → Option AggEval := fun _ => none
  let vba1 := mapSet vba0 .stand
    (aggOf (resolveHandAgainstDealerDistribution playerCards 1
      rules.blackjackPayout true dealerDist))
  let vba2 :=
    if Action.hit ∈ actions then
      mapSet vba1 .hit
        (aggOf (hitEvaluation playerCards baseCounts dealerDist rules))
    else vba1
  let vba3 :=
    if Action.double ∈ actions then
      if canDoubleNow playerCards true rules = true then
        mapSet vba2 .double
          (aggOf (doubleEvaluation playerCards baseCounts dealerDist rules))
      else mapSet vba2 .double ⟨⊥, 0, 1⟩
    else vba2
  let vba4 :=
    if Action.split ∈ actions then
      mapSet vba3 .split
        (aggOf (evalSplitAction playerCards.headI baseCounts dealerDist
          rules))
    else vba3
  let vba5 :=
    if Action.surrender ∈ actions then
      mapSet vba4 .surrender (aggOf (surrenderEvalResult dealerDist))
    else vba4
  let vbaGet := fun a => (vba5 a).getD aggDefault
  let evByAction : Action → Option (WithBot ℚ) :=
    fun a => if a ∈ actions then some (vbaGet a).ev else none
  let winRateByAction : Action → Option ℚ :=
    fun a => if a ∈ actions then some (vbaGet a).winProb else none
  let lossRateByAction : Action → Option ℚ :=
    fun a => if a ∈ actions then some (vbaGet a).lossProb else none
  let recommendedAction :=
    reduceBest (fun a => (evByAction a).getD ⊥) actions.headI actions
  let safeRecommendedAction :=
    reduceBest (fun a => safeScore (vbaGet a)) actions.headI actions
  { valid := true
    message := none
    runningCount := runningCount
    trueCount := trueCount
    decksRemaining := decksRemaining
    evByAction := evByAction
    winRateByAction := winRateByAction
    lossRateByAction := lossRateByAction
    recommendedAction := some recommendedAction
    safeRecommendedAction := some safeRecommendedAction }

/-- `calculateDecision`: the validity gates in source order, then the
success path. -/
def calculateDecision (input : DecisionInput) : DecisionResult :=
  let rules := normalizeRules input.rules
  match input.dealerUpcard with
  | none => emptyResult rules "Select the dealer upcard to start."
  | some dealerUpcard =>
    if input.playerCards.length < 2 then
      emptyResult rules "Add your first two cards to evaluate actions."
    else if 21 < (handValue input.playerCards).total then
      emptyResult rules "Player bust. Hand is over."
    else
      match removeObserved
          (input.playerCards ++ [dealerUpcard] ++ input.tableSeenCards)
          (toShoeCounts rules.decks) 0 with
      | none =>
        emptyResult rules
          "Observed cards exceed available cards for selected deck count."
      | some (baseCounts, runningCount) =>
        decisionCore input.playerCards dealerUpcard baseCounts runningCount
          rules

/-! ### Heap model for the frame property

The aggregator's only in-place mutation acts on arrays: the input card
arrays are read-only and the shoe composition it mutates is freshly
allocated per call.  To state that as a frame property, arrays live in
an explicit heap of cells; every pure sub-computation receives values
read from the heap (it only reads or clones its array arguments). -/

inductive HCell where
  | cards (cs : List Rank)
  | counts (c : ShoeCounts)

abbrev Heap := List HCell

def readCards (h : Heap) (i : ℕ) : List Rank :=
  match h[i]? with
  | some (.cards cs) => cs
  | _ => []

def readCounts (h : Heap) (i : ℕ) : ShoeCounts :=
  match h[i]? with
  | some (.counts c) => c
  | _ => fun _ => 0

def writeCell (h : Heap) (i : ℕ) (c : HCell) : Heap := h.set i c

def allocCell (h : Heap) (c : HCell) : ℕ × Heap := (h.length, h ++ [c])

def removeObservedH : List Rank → ℕ → ℤ → Heap → Option ℤ × Heap
  | [], _, rc, h => (some rc, h)
  | card :: rest, ref, rc, h =>
    let res := removeCard (readCounts h ref) card
    let h2 := writeCell h ref (.counts res.2)
    if res.1 then removeObservedH rest ref (rc + hiLoTag card) h2
    else (none, h2)

def calculateDecisionH (h : Heap) (pcRef seenRef : ℕ)
    (dealerUpcard : Option Rank) (rules : Rules) : DecisionResult × Heap :=
  let rulesN := normalizeRules rules
  let pc := readCards h pcRef
  match dealerUpcard with
  | none => (emptyResult rulesN "Select the dealer upcard to start.", h)
  | some u =>
    if pc.length < 2 then
      (emptyResult rulesN "Add your first two cards to evaluate actions.", h)
    else if 21 < (handValue pc).total then
      (emptyResult rulesN "Player bust. Hand is over.", h)
    else
      let alloc := allocCell h (.counts (toShoeCounts rulesN.decks))
      let observed := pc ++ [u] ++ readCards alloc.2 seenRef
      match removeObservedH observed alloc.1 0 alloc.2 with
      | (none, h2) =>
        (emptyResult rulesN
          "Observed cards exceed available cards for selected deck count.", h2)
      | (some rc, h2) =>
        (decisionCore pc u (readCounts h2 alloc.1) rc rulesN, h2)

/-! ### Spec-side definitions used to compare claims against the code -/

/-- Modelled from the spec's words ("the hard total is 9–11"): the hard
total of a hand counts every ace as 1. -/
def specHardTotal (cards : List Rank) : ℕ :=
  (cards.map (fun c => if c = Rank.ace then 1 else rankValue c)).sum

/-- A concrete normalized rule set with `doubleAnyTwo` disabled. -/
def noAnyTwoRules : NormalizedRules :=
  ⟨1, false, false, 2, true, 2, false, false, false⟩

/-- A concrete shoe: no aces, two of every other rank. -/
def witnessCounts : ShoeCounts :=
  fun r => if r = Rank.ace then 0 else 2

/-- Every memoised dealer distribution has total mass 1. -/
abbrev dealerMemoInv (memo : DealerMemo) : Prop :=
  ∀ kv ∈ memo, distributionMass kv.2 = 1

/-- Modelled from the spec's words ("argmax … first-seen tie-break"):
the earliest element of the list whose score is at least every
element's score. -/
def firstMaxBy {α β : Type} [LinearOrder β] (f : α → β) (l : List α) :
    Option α :=
  l.find? (fun a => decide (∀ b ∈ l, f b ≤ f a))

/-- The observed cards of a decision input, in removal order. -/
def observedCards (input : DecisionInput) : List Rank :=
  input.playerCards ++ input.dealerUpcard.toList ++ input.tableSeenCards

/-- Modelled from the spec's words for C5: the risk-adjusted score
`EV − λ·lossProb` read back from a decision result's output maps. -/
def safeScoreOfResult (r : DecisionResult) (a : Action) : WithBot ℚ :=
  WithBot.map
    (fun q => q - RISK_AVERSION_WEIGHT * ((r.lossRateByAction a).getD 1))
    ((r.evByAction a).getD ⊥)

/-- A decision input with no dealer upcard selected. -/
def noUpcardInput : DecisionInput where
  playerCards := []
  dealerUpcard := none
  tableSeenCards := []
  rules := { decks := 1, dealerHitsSoft17 := false, doubleAfterSplit := false,
             blackjackPayout := 2 }

/-- A valid decision input: player {10, 7} against a ten upcard from a
fresh single deck. -/
def standardInput : DecisionInput where
  playerCards := [.ten, .seven]
  dealerUpcard := some .ten
  tableSeenCards := []
  rules := { decks := 1, dealerHitsSoft17 := false, doubleAfterSplit := true,
             blackjackPayout := 2 }


/-! ### Theorems -/

/-! ### Mass lemmas for the dealer distribution -/

theorem dealerMemoInv_nil : dealerMemoInv [] := by
  intro kv hkv
  cases hkv

theorem dealerMemoInv_set {memo : DealerMemo} {k : DealerKey}
    {d : DealerDistribution} (hm : dealerMemoInv memo)
    (hd : distributionMass d = 1) : dealerMemoInv (memoSet k d memo) := by
  intro kv hkv
  rcases List.mem_cons.mp hkv with h | h
  · rw [h]
    exact hd
  · exact hm kv h

theorem dealerMemoInv_find {memo : DealerMemo} {k : DealerKey}
    {d : DealerDistribution} (hm : dealerMemoInv memo)
    (hf : memoFind k memo = some d) : distributionMass d = 1 := by
  induction memo with
  | nil => cases hf
  | cons kv rest ih =>
    rw [memoFind] at hf
    by_cases hk : k = kv.1
    · rw [if_pos hk] at hf
      cases hf
      exact hm kv (List.mem_cons_self kv rest)
    · rw [if_neg hk] at hf
      exact ih (fun kv2 hkv2 => hm kv2 (List.mem_cons_of_mem kv hkv2)) hf

theorem mass_unitBlackjack : distributionMass unitBlackjack = 1 := by
  norm_num [distributionMass, unitBlackjack, emptyDealerDistribution]

theorem mass_unitBust : distributionMass unitBust = 1 := by
  norm_num [distributionMass, unitBust, emptyDealerDistribution]

theorem mass_unitTotal {n : ℕ} (h1 : 17 ≤ n) (h2 : n ≤ 21) :
    distributionMass (unitTotal n) = 1 := by
  interval_cases n <;>
    norm_num [distributionMass, unitTotal, emptyDealerDistribution]

theorem mass_add (a b : DealerDistribution) (q : ℚ) :
    distributionMass (addDealerDistribution a b q) =
      distributionMass a + q * distributionMass b := by
  simp only [distributionMass, addDealerDistribution]
  ring

/-- The per-rank accumulation loop adds `count/total` mass per branch and
preserves the memo invariant, provided every child distribution has
mass 1 and preserves the invariant. -/
theorem dealerBranchFold_mass (counts : ShoeCounts) (totalCards : ℕ)
    (child : Rank → DealerMemo → DealerDistribution × DealerMemo)
    (l : List Rank)
    (hchild : ∀ r, 0 < counts r → ∀ m, dealerMemoInv m →
      distributionMass (child r m).1 = 1 ∧ dealerMemoInv (child r m).2) :
    ∀ init : DealerDistribution × DealerMemo, dealerMemoInv init.2 →
      distributionMass (dealerBranchFold counts totalCards child init l).1 =
        distributionMass init.1 +
          (l.map (fun r =>
            if 0 < counts r then (counts r : ℚ) / (totalCards : ℚ) else 0)).sum ∧
      dealerMemoInv (dealerBranchFold counts totalCards child init l).2 := by
  induction l with
  | nil =>
    intro init hinit
    constructor
    · simp [dealerBranchFold]
    · simpa [dealerBranchFold] using hinit
  | cons r rest ih =>
    intro init hinit
    by_cases hc : 0 < counts r
    · obtain ⟨hm1, hinv1⟩ := hchild r hc init.2 hinit
      have step := ih
        (addDealerDistribution init.1 (child r init.2).1
          ((counts r : ℚ) / (totalCards : ℚ)), (child r init.2).2) hinv1
      simp only [dealerBranchFold, List.foldl_cons, if_pos hc] at step ⊢
      refine ⟨?_, step.2⟩
      rw [step.1, mass_add, hm1, List.map_cons, List.sum_cons, if_pos hc]
      ring
    · have step := ih init hinit
      simp only [dealerBranchFold, List.foldl_cons, if_neg hc] at step ⊢
      refine ⟨?_, step.2⟩
      rw [step.1, List.map_cons, List.sum_cons, if_neg hc]
      ring

theorem branch_prob_sum (counts : ShoeCounts) (totalCards : ℕ)
    (l : List Rank) :
    (l.map (fun r =>
      if 0 < counts r then (counts r : ℚ) / (totalCards : ℚ) else 0)).sum =
      (((l.map counts).sum : ℕ) : ℚ) / (totalCards : ℚ) := by
  induction l with
  | nil => simp
  | cons r rest ih =>
    simp only [List.map_cons, List.sum_cons, ih]
    by_cases hc : 0 < counts r
    · rw [if_pos hc]
      push_cast
      ring
    · rw [if_neg hc]
      have : counts r = 0 := by omega
      rw [this]
      push_cast
      ring

/-- Every distribution produced by the dealer recursion has total mass 1
and the threaded memo keeps its invariant. -/
theorem dealerDistGo_mass (fuel : ℕ) :
    ∀ (dealerCards : List Rank) (counts : ShoeCounts) (h17 : Bool)
      (memo : DealerMemo), dealerMemoInv memo →
      distributionMass (dealerDistGo fuel dealerCards counts h17 memo).1 = 1 ∧
      dealerMemoInv (dealerDistGo fuel dealerCards counts h17 memo).2 := by
  induction fuel with
  | zero =>
    intro dealerCards counts h17 memo hmemo
    rcases hfind : memoFind (mkDealerKey dealerCards counts h17) memo with
      _ | d
    · unfold dealerDistGo
      simp only [hfind]
      split_ifs with hbj hbust hstand hempty
      · exact ⟨mass_unitBlackjack, dealerMemoInv_set hmemo mass_unitBlackjack⟩
      · exact ⟨mass_unitBust, dealerMemoInv_set hmemo mass_unitBust⟩
      · have hm : distributionMass
            (unitTotal (handValue dealerCards).total) = 1 := by
          refine mass_unitTotal ?_ ?_ <;> omega
        exact ⟨hm, dealerMemoInv_set hmemo hm⟩
      · have hm : distributionMass
            (unitTotal (min 21 (max 17 (handValue dealerCards).total))) = 1 := by
          refine mass_unitTotal ?_ ?_ <;> omega
        exact ⟨hm, dealerMemoInv_set hmemo hm⟩
      · have hm : distributionMass
            (unitTotal (min 21 (max 17 (handValue dealerCards).total))) = 1 := by
          refine mass_unitTotal ?_ ?_ <;> omega
        exact ⟨hm, dealerMemoInv_set hmemo hm⟩
    · unfold dealerDistGo
      simp only [hfind]
      exact ⟨dealerMemoInv_find hmemo hfind, hmemo⟩
  | succ fuel' ih =>
    intro dealerCards counts h17 memo hmemo
    rcases hfind : memoFind (mkDealerKey dealerCards counts h17) memo with
      _ | d
    · unfold dealerDistGo
      simp only [hfind]
      split_ifs with hbj hbust hstand hempty
      · exact ⟨mass_unitBlackjack, dealerMemoInv_set hmemo mass_unitBlackjack⟩
      · exact ⟨mass_unitBust, dealerMemoInv_set hmemo mass_unitBust⟩
      · have hm : distributionMass
            (unitTotal (handValue dealerCards).total) = 1 := by
          refine mass_unitTotal ?_ ?_ <;> omega
        exact ⟨hm, dealerMemoInv_set hmemo hm⟩
      · have hm : distributionMass
            (unitTotal (min 21 (max 17 (handValue dealerCards).total))) = 1 := by
          refine mass_unitTotal ?_ ?_ <;> omega
        exact ⟨hm, dealerMemoInv_set hmemo hm⟩
      · have hfold := dealerBranchFold_mass counts (countTotal counts)
          (fun r m =>
            dealerDistGo fuel' (dealerCards ++ [r]) (decCount counts r)
              h17 m)
          RANKS
          (fun r _ m hm =>
            ih (dealerCards ++ [r]) (decCount counts r) h17 m hm)
          (emptyDealerDistribution, memo) hmemo
        have hsum := branch_prob_sum counts (countTotal counts) RANKS
        have hT : ((countTotal counts : ℕ) : ℚ) ≠ 0 := by
          exact_mod_cast hempty
        have h0 : distributionMass emptyDealerDistribution = 0 := by
          norm_num [distributionMass, emptyDealerDistribution]
        have hmass : distributionMass
            (dealerBranchFold counts (countTotal counts)
              (fun r m =>
                dealerDistGo fuel' (dealerCards ++ [r]) (decCount counts r)
                  h17 m)
              (emptyDealerDistribution, memo) RANKS).1 = 1 := by
          rw [hfold.1, hsum, h0]
          have : (((RANKS.map counts).sum : ℕ) : ℚ) = ((countTotal counts : ℕ) : ℚ) := by
            rw [countTotal]
          rw [this, div_self hT]
          norm_num
        exact ⟨hmass, dealerMemoInv_set hfold.2 hmass⟩
    · unfold dealerDistGo
      simp only [hfind]
      exact ⟨dealerMemoInv_find hmemo hfind, hmemo⟩

/-! ### C1 — dealer distribution total mass -/

/-- C1: for every composition with at least one card remaining, every
upcard and either soft-17 rule, the probabilities of the computed dealer
distribution (blackjack, bust, totals 17–21) sum exactly to 1. -/
theorem computeDealerDistribution_mass (dealerUpcard : Rank)
    (counts : ShoeCounts) (dealerHitsSoft17 : Bool)
    (hpos : 0 < countTotal counts) :
    distributionMass
      (computeDealerDistribution dealerUpcard counts dealerHitsSoft17) = 1 := by
  have hne : ¬ countTotal counts = 0 := by omega
  have hfold := dealerBranchFold_mass counts (countTotal counts)
    (fun r m =>
      dealerDistributionFromKnownCards [dealerUpcard, r] (decCount counts r)
        dealerHitsSoft17 m)
    RANKS
    (fun r _ m hm =>
      dealerDistGo_mass (countTotal (decCount counts r)) [dealerUpcard, r]
        (decCount counts r) dealerHitsSoft17 m hm)
    (emptyDealerDistribution, ([] : DealerMemo)) dealerMemoInv_nil
  have hsum := branch_prob_sum counts (countTotal counts) RANKS
  have hT : ((countTotal counts : ℕ) : ℚ) ≠ 0 := by exact_mod_cast hne
  have h0 : distributionMass emptyDealerDistribution = 0 := by
    norm_num [distributionMass, emptyDealerDistribution]
  simp only [computeDealerDistribution, if_neg hne]
  rw [hfold.1, hsum, h0]
  have hcast : (((RANKS.map counts).sum : ℕ) : ℚ) =
      ((countTotal counts : ℕ) : ℚ) := by rw [countTotal]
  rw [hcast, div_self hT]
  norm_num

/-- Witness for C1 on a full fresh single deck with a ten upcard. -/
theorem computeDealerDistribution_mass_witness :
    distributionMass
      (computeDealerDistribution Rank.ten (toShoeCounts 1) false) = 1 :=
  computeDealerDistribution_mass Rank.ten (toShoeCounts 1) false (by decide)

/-! ### C8 — exhausted shoe during the dealer recursion -/

/-- C8 counterexample: with the shoe exhausted and the dealer holding
`{2, 10}` (total 12, a drawing state), the recursion does not put
probability 1 on the current total 12 — it clamps the total into 17–21,
producing the point distribution at 17. -/
theorem dealer_exhausted_current_total_false :
    (dealerDistributionFromKnownCards [Rank.two, Rank.ten] (fun _ => 0)
        false []).1 ≠
      unitTotal (handValue [Rank.two, Rank.ten]).total := by
  decide

/-- C8 (amended): when the composition is exhausted in a drawing state
(not a two-card blackjack, total ≤ 16, or soft 17 under H17), the dealer
recursion terminates by assigning probability 1 to the current total
clamped into [17, 21] — which is 17 in every such state — rather than
propagating an error. -/
theorem dealer_exhausted_leaf (dealerCards : List Rank)
    (counts : ShoeCounts) (dealerHitsSoft17 : Bool)
    (hempty : countTotal counts = 0)
    (hnotbj : ¬ (dealerCards.length = 2 ∧ isBlackjack dealerCards = true))
    (hdraw : (handValue dealerCards).total ≤ 16 ∨
      ((handValue dealerCards).total = 17 ∧
        (handValue dealerCards).soft = true ∧ dealerHitsSoft17 = true)) :
    (dealerDistributionFromKnownCards dealerCards counts
        dealerHitsSoft17 []).1 =
      unitTotal (min 21 (max 17 (handValue dealerCards).total)) ∧
    (dealerDistributionFromKnownCards dealerCards counts
        dealerHitsSoft17 []).1 = unitTotal 17 := by
  have ht : (handValue dealerCards).total ≤ 17 := by
    rcases hdraw with h | h
    · omega
    · omega
  have hbust : ¬ 21 < (handValue dealerCards).total := by omega
  have hstand : ¬ (17 < (handValue dealerCards).total ∨
      ((handValue dealerCards).total = 17 ∧
        ((handValue dealerCards).soft = false ∨ dealerHitsSoft17 = false))) := by
    rintro (h | ⟨h17, hsoft⟩)
    · omega
    · rcases hdraw with h | ⟨-, hs, hh⟩
      · omega
      · rcases hsoft with hs2 | hh2
        · rw [hs] at hs2
          exact absurd hs2 (by decide)
        · rw [hh] at hh2
          exact absurd hh2 (by decide)
  have hclamp : min 21 (max 17 (handValue dealerCards).total) = 17 := by
    omega
  unfold dealerDistributionFromKnownCards dealerDistGo
  rw [hempty]
  simp only [memoFind, if_neg hnotbj, if_neg hbust, if_neg hstand, if_pos rfl]
  rw [hclamp]
  refine ⟨?_, ?_⟩ <;> simp

/-- Witness for C8 at the exhausted-shoe state `{2, 10}`. -/
theorem dealer_exhausted_leaf_witness :
    (dealerDistributionFromKnownCards [Rank.two, Rank.ten] (fun _ => 0)
        false []).1 = unitTotal 17 :=
  (dealer_exhausted_leaf [Rank.two, Rank.ten] (fun _ => 0) false
    (by decide) (by decide) (Or.inl (by decide))).2

/-! ### C3 — surrender evaluation -/

/-- C3: the surrender evaluation returns `ev = −0.5 − 0.5·P(dealer BJ)`,
`winProb = 0` and `lossProb = P(dealer BJ)`; hence for `P(dealer BJ)`
in `[0,1]` the EV lies in `[−1, −0.5]`, hitting `−0.5` at 0 and `−1`
at 1. -/
theorem surrenderEvalResult_spec (d : DealerDistribution) :
    surrenderEvalResult d =
      ⟨-(1 / 2) - 1 / 2 * d.blackjack, 0, d.blackjack⟩ ∧
    (0 ≤ d.blackjack → d.blackjack ≤ 1 →
      -1 ≤ (surrenderEvalResult d).ev ∧
        (surrenderEvalResult d).ev ≤ -(1 / 2)) ∧
    (d.blackjack = 0 → (surrenderEvalResult d).ev = -(1 / 2)) ∧
    (d.blackjack = 1 → (surrenderEvalResult d).ev = -1) := by
  refine ⟨rfl, fun h0 h1 => ?_, fun h => ?_, fun h => ?_⟩
  · simp only [surrenderEvalResult]
    constructor <;> linarith
  · simp only [surrenderEvalResult, h]
    ring
  · simp only [surrenderEvalResult, h]
    ring

/-- Witness for C3 at the two endpoint distributions. -/
theorem surrenderEvalResult_spec_witness :
    ((-1 ≤ (surrenderEvalResult ⟨1, 0, 0, 0, 0, 0, 0⟩).ev ∧
        (surrenderEvalResult ⟨1, 0, 0, 0, 0, 0, 0⟩).ev ≤ -(1 / 2)) ∧
      (surrenderEvalResult ⟨1, 0, 0, 0, 0, 0, 0⟩).ev = -1) ∧
    (surrenderEvalResult ⟨0, 0, 0, 0, 0, 0, 0⟩).ev = -(1 / 2) :=
  ⟨⟨(surrenderEvalResult_spec ⟨1, 0, 0, 0, 0, 0, 0⟩).2.1 zero_le_one
      (le_refl 1),
    (surrenderEvalResult_spec ⟨1, 0, 0, 0, 0, 0, 0⟩).2.2.2 rfl⟩,
   (surrenderEvalResult_spec ⟨0, 0, 0, 0, 0, 0, 0⟩).2.2.1 rfl⟩

/-! ### C4 — double eligibility -/

/-- C4 counterexample: with `doubleAnyTwo` off, the hand `{A, 8}` has
hard total 9, so the claim ("double is eligible iff … the hard total is
between 9 and 11") demands eligibility, but `canDoubleNow` evaluates the
soft hand value 19 and refuses. -/
theorem canDoubleNow_hard_total_claim_false :
    ¬ (canDoubleNow [Rank.ace, Rank.eight] true noAnyTwoRules = true ↔
        (true = true ∧ ([Rank.ace, Rank.eight] : List Rank).length = 2 ∧
          (noAnyTwoRules.doubleAnyTwo = true ∨
            (9 ≤ specHardTotal [Rank.ace, Rank.eight] ∧
              specHardTotal [Rank.ace, Rank.eight] ≤ 11)))) := by
  decide

/-- C4 (amended): doubling is eligible iff the double flag is set, the
hand has exactly two cards, and either `doubleAnyTwo` is enabled or the
hand's ace-reduced value (`handValue`, an ace counting 11 while it does
not bust) is between 9 and 11 inclusive. -/
theorem canDoubleNow_iff (cards : List Rank) (flag : Bool)
    (rules : NormalizedRules) :
    canDoubleNow cards flag rules = true ↔
      (flag = true ∧ cards.length = 2 ∧
        (rules.doubleAnyTwo = true ∨
          (9 ≤ (handValue cards).total ∧ (handValue cards).total ≤ 11))) := by
  unfold canDoubleNow
  split_ifs with h1 h2
  · simp only [Bool.false_eq_true, false_iff]
    rintro ⟨hf, hl, -⟩
    rcases h1 with h1 | h1
    · rw [hf] at h1
      exact absurd h1 (by decide)
    · exact h1 hl
  · push_neg at h1
    obtain ⟨hf, hl⟩ := h1
    simp only [Bool.not_eq_false] at hf
    simp [hf, hl, h2]
  · push_neg at h1
    obtain ⟨hf, hl⟩ := h1
    simp only [Bool.not_eq_false] at hf
    simp only [Bool.not_eq_true] at h2
    simp [hf, hl, h2, decide_eq_true_iff]

/-! ### C6 — removing a card from the shoe -/

/-- C6: removing an exhausted rank fails and leaves every count
unchanged; removing an available rank succeeds and decrements exactly
that rank. -/
theorem removeCard_spec (counts : ShoeCounts) (rank : Rank) :
    (counts rank = 0 → removeCard counts rank = (false, counts)) ∧
    (0 < counts rank →
      (removeCard counts rank).1 = true ∧
      (removeCard counts rank).2 rank = counts rank - 1 ∧
      ∀ r2, r2 ≠ rank → (removeCard counts rank).2 r2 = counts r2) := by
  constructor
  · intro h
    simp [removeCard, h]
  · intro h
    have hne : ¬ counts rank ≤ 0 := by omega
    refine ⟨by simp [removeCard, hne], by simp [removeCard, hne], ?_⟩
    intro r2 hr2
    simp [removeCard, hne, Function.update_noteq hr2]

/-- Witness for C6: on a shoe with no aces and two twos, removing an ace
fails without mutation and removing a two decrements only the twos. -/
theorem removeCard_spec_witness :
    removeCard witnessCounts .ace = (false, witnessCounts) ∧
    (removeCard witnessCounts .two).1 = true ∧
    (removeCard witnessCounts .two).2 .two = 1 ∧
    (removeCard witnessCounts .two).2 .ace = 0 :=
  ⟨(removeCard_spec witnessCounts .ace).1 rfl,
   ((removeCard_spec witnessCounts .two).2 (by decide)).1,
   ((removeCard_spec witnessCounts .two).2 (by decide)).2.1,
   ((removeCard_spec witnessCounts .two).2 (by decide)).2.2 .ace (by decide)⟩

/-! ### C7 — standing against a certainly-busting dealer -/

/-- C7 counterexample: the claim asserts `ev = +s` for every hand with
total ≤ 21, but the stand path resolves with `blackjackEligible = true`,
so a two-card blackjack at payout 2 yields `ev = 2·s`, not `s`. -/
theorem resolve_stand_bust_claim_false :
    resolveHandAgainstDealerDistribution [Rank.ace, Rank.king] 1 2 true
        unitBust ≠ ⟨1, 1, 0⟩ := by
  have hbj : isBlackjack [Rank.ace, Rank.king] = true := by decide
  have hv : (handValue [Rank.ace, Rank.king]).total = 21 := by decide
  simp only [resolveHandAgainstDealerDistribution, hv, hbj, unitBust,
    emptyDealerDistribution]
  norm_num

/-- C7 (amended): against a dealer distribution with bust probability 1,
standing (resolution with `blackjackEligible = true`) at any stake `s`
yields `ev = s`, `winProb = 1`, `lossProb = 0` — unless the hand is a
two-card blackjack, in which case `ev = s × payout` with the same win
and loss probabilities. -/
theorem resolve_stand_vs_bust_dealer (cards : List Rank)
    (stake payout : ℚ) (htotal : (handValue cards).total ≤ 21) :
    (isBlackjack cards = false →
      resolveHandAgainstDealerDistribution cards stake payout true unitBust =
        ⟨stake, 1, 0⟩) ∧
    (isBlackjack cards = true →
      resolveHandAgainstDealerDistribution cards stake payout true unitBust =
        ⟨stake * payout, 1, 0⟩) := by
  have hnb : ¬ 21 < (handValue cards).total := not_lt.mpr htotal
  constructor
  · intro hbj
    simp only [resolveHandAgainstDealerDistribution, unitBust,
      emptyDealerDistribution, dealerTotalsList, hnb, if_false, hbj]
    norm_num
  · intro hbj
    simp only [resolveHandAgainstDealerDistribution, unitBust,
      emptyDealerDistribution, hnb, if_false, hbj]
    norm_num

/-- Witness for C7 at the hand `{7, 10}` with stake 2. -/
theorem resolve_stand_vs_bust_dealer_witness :
    resolveHandAgainstDealerDistribution [Rank.seven, Rank.ten] 2 2 true
        unitBust = ⟨2, 1, 0⟩ :=
  (resolve_stand_vs_bust_dealer [Rank.seven, Rank.ten] 2 2 (by decide)).1
    (by decide)

/-! ### The strict-improvement fold computes the first-seen argmax -/

theorem reduceBest_spec {α β : Type} [LinearOrder β] (f : α → β)
    (l : List α) :
    ∀ b : α,
      (reduceBest f b l = b ∧ ∀ a ∈ l, f a ≤ f b) ∨
      (∃ l1 l2, l = l1 ++ reduceBest f b l :: l2 ∧
        f b < f (reduceBest f b l) ∧
        (∀ a ∈ l1, f a < f (reduceBest f b l)) ∧
        (∀ a ∈ l2, f a ≤ f (reduceBest f b l))) := by
  induction l with
  | nil =>
    intro b
    left
    constructor
    · simp [reduceBest]
    · intro a ha
      cases ha
  | cons x xs ih =>
    intro b
    have hstep : reduceBest f b (x :: xs) =
        reduceBest f (if f b < f x then x else b) xs := by
      simp [reduceBest, List.foldl_cons]
    by_cases h : f b < f x
    · rw [if_pos h] at hstep
      rcases ih x with ⟨hr, hall⟩ | ⟨l1, l2, heq, hlt, h1, h2⟩
      · right
        refine ⟨[], xs, ?_, ?_, ?_, ?_⟩
        · rw [hstep, hr]
          simp
        · rw [hstep, hr]
          exact h
        · intro a ha
          cases ha
        · intro a ha
          rw [hstep, hr]
          exact hall a ha
      · right
        refine ⟨x :: l1, l2, ?_, ?_, ?_, ?_⟩
        · rw [hstep, List.cons_append]
          exact congrArg (x :: ·) heq
        · rw [hstep]
          exact h.trans hlt
        · intro a ha
          rw [hstep]
          rcases List.mem_cons.mp ha with ha | ha
          · rw [ha]
            exact hlt
          · exact h1 a ha
        · intro a ha
          rw [hstep]
          exact h2 a ha
    · rw [if_neg h] at hstep
      have hxb : f x ≤ f b := not_lt.mp h
      rcases ih b with ⟨hr, hall⟩ | ⟨l1, l2, heq, hlt, h1, h2⟩
      · left
        refine ⟨by rw [hstep, hr], ?_⟩
        intro a ha
        rcases List.mem_cons.mp ha with ha | ha
        · rw [ha]
          exact hxb
        · exact hall a ha
      · right
        refine ⟨x :: l1, l2, ?_, ?_, ?_, ?_⟩
        · rw [hstep, List.cons_append]
          exact congrArg (x :: ·) heq
        · rw [hstep]
          exact hlt
        · intro a ha
          rw [hstep]
          rcases List.mem_cons.mp ha with ha | ha
          · rw [ha]
            exact lt_of_le_of_lt hxb hlt
          · exact h1 a ha
        · intro a ha
          rw [hstep]
          exact h2 a ha

theorem find?_eq_of_decomp {α : Type} (p : α → Bool) :
    ∀ (l1 l l2 : List α) (r : α), l = l1 ++ r :: l2 →
      p r = true → (∀ a ∈ l1, p a = false) → l.find? p = some r := by
  intro l1
  induction l1 with
  | nil =>
    intro l l2 r hl hp _
    subst hl
    simp [List.find?, hp]
  | cons a l1 ih =>
    intro l l2 r hl hp hneg
    subst hl
    have ha : p a = false := hneg a (List.mem_cons_self a l1)
    rw [List.cons_append, List.find?]
    rw [ha]
    exact ih _ l2 r rfl hp fun a2 ha2 => hneg a2 (List.mem_cons_of_mem a ha2)

/-- The source's `reduce` over the full action list with its head as the
initial accumulator returns the earliest maximal element. -/
theorem reduceBest_eq_firstMaxBy {α β : Type} [LinearOrder β]
    (f : α → β) (x : α) (xs : List α) :
    some (reduceBest f x (x :: xs)) = firstMaxBy f (x :: xs) := by
  have hstep0 : reduceBest f x (x :: xs) = reduceBest f x xs := by
    simp [reduceBest, List.foldl_cons]
  rcases reduceBest_spec f xs x with ⟨hr, hall⟩ | ⟨l1, l2, heq, hlt, h1, h2⟩
  · rw [hstep0, hr]
    have hp : (fun a => decide (∀ b ∈ x :: xs, f b ≤ f a)) x = true := by
      apply decide_eq_true
      intro b hb
      rcases List.mem_cons.mp hb with hb | hb
      · rw [hb]
      · exact hall b hb
    exact (find?_eq_of_decomp _ [] (x :: xs) xs x (by simp) hp
      (by simp)).symm
  · rw [hstep0]
    have hmem : x :: xs = (x :: l1) ++ reduceBest f x xs :: l2 := by
      rw [List.cons_append]
      exact congrArg (x :: ·) heq
    have hp : (fun a => decide (∀ b ∈ x :: xs, f b ≤ f a))
        (reduceBest f x xs) = true := by
      apply decide_eq_true
      intro b hb
      rcases List.mem_cons.mp hb with hb | hb
      · rw [hb]
        exact le_of_lt hlt
      · rw [heq] at hb
        rcases List.mem_append.mp hb with hb | hb
        · exact le_of_lt (h1 b hb)
        · rcases List.mem_cons.mp hb with hb | hb
          · rw [hb]
          · exact h2 b hb
    have hneg : ∀ a ∈ x :: l1,
        (fun a => decide (∀ b ∈ x :: xs, f b ≤ f a)) a = false := by
      intro a ha
      apply decide_eq_false
      intro hcon
      have hle : f (reduceBest f x xs) ≤ f a := by
        apply hcon
        rw [hmem]
        exact List.mem_append.mpr (Or.inr (List.mem_cons_self _ _))
      have hgt : f a < f (reduceBest f x xs) := by
        rcases List.mem_cons.mp ha with ha | ha
        · rw [ha]
          exact hlt
        · exact h1 a ha
      exact absurd hle (not_le.mpr hgt)
    exact (find?_eq_of_decomp _ (x :: l1) (x :: xs) l2 (reduceBest f x xs)
      hmem hp hneg).symm

theorem reduceBest_congr {α β : Type} [LinearOrder β] {f g : α → β}
    (l : List α) :
    ∀ b : α, (∀ a, a = b ∨ a ∈ l → f a = g a) →
      reduceBest f b l = reduceBest g b l := by
  induction l with
  | nil =>
    intro b _
    rfl
  | cons x xs ih =>
    intro b hfg
    have hb : f b = g b := hfg b (Or.inl rfl)
    have hx : f x = g x :=
      hfg x (Or.inr (List.mem_cons_self x xs))
    have hstep : (if f b < f x then x else b) = if g b < g x then x else b := by
      rw [hb, hx]
    show List.foldl _ _ (x :: xs) = List.foldl _ _ (x :: xs)
    rw [List.foldl_cons, List.foldl_cons]
    show reduceBest f (if f b < f x then x else b) xs =
      reduceBest g (if g b < g x then x else b) xs
    rw [← hstep]
    apply ih
    intro a ha
    rcases ha with ha | ha
    · rcases ha with ha
      by_cases hc : f b < f x
      · rw [if_pos hc] at ha
        rw [ha]
        exact hx
      · rw [if_neg hc] at ha
        rw [ha]
        exact hb
    · exact hfg a (Or.inr (List.mem_cons_of_mem x ha))

theorem find?_congr {α : Type} {p q : α → Bool} :
    ∀ l : List α, (∀ a ∈ l, p a = q a) → l.find? p = l.find? q := by
  intro l
  induction l with
  | nil =>
    intro _
    rfl
  | cons x xs ih =>
    intro h
    have hx : p x = q x := h x (List.mem_cons_self x xs)
    have hrest := ih fun a ha => h a (List.mem_cons_of_mem x ha)
    rw [List.find?, List.find?, hx, hrest]

theorem firstMaxBy_congr {α β : Type} [LinearOrder β] {f g : α → β}
    (l : List α) (hfg : ∀ a ∈ l, f a = g a) :
    firstMaxBy f l = firstMaxBy g l := by
  unfold firstMaxBy
  apply find?_congr
  intro a ha
  apply decide_eq_decide.mpr
  constructor
  · intro h b hb
    rw [← hfg b hb, ← hfg a ha]
    exact h b hb
  · intro h b hb
    rw [hfg b hb, hfg a ha]
    exact h b hb

/-! ### C5 — the two recommendations are first-seen argmaxes -/

/-- The success path picks `recommendedAction` as the earliest action
maximising the reported EV and `safeRecommendedAction` as the earliest
action maximising `EV − λ·lossProb`. -/
theorem decisionCore_recommendations (pc : List Rank) (dealerUpcard : Rank)
    (bc : ShoeCounts) (rc : ℤ) (rules : NormalizedRules) :
    (decisionCore pc dealerUpcard bc rc rules).recommendedAction =
      firstMaxBy
        (fun a => ((decisionCore pc dealerUpcard bc rc rules).evByAction a).getD ⊥)
        (decisionActions pc rules) ∧
    (decisionCore pc dealerUpcard bc rc rules).safeRecommendedAction =
      firstMaxBy (safeScoreOfResult (decisionCore pc dealerUpcard bc rc rules))
        (decisionActions pc rules) := by
  simp only [decisionCore]
  have hact : decisionActions pc rules = Action.stand ::
      ([Action.hit, Action.double] ++
        (if isPair pc = true ∧ 2 ≤ rules.maxSplitHands then [Action.split]
         else []) ++
        (if rules.lateSurrender = true ∧ pc.length = 2 then [Action.surrender]
         else [])) := by
    simp [decisionActions]
  rw [hact]
  simp only [List.headI]
  constructor
  · exact reduceBest_eq_firstMaxBy _ _ _
  · refine (reduceBest_eq_firstMaxBy _ _ _).trans ?_
    apply firstMaxBy_congr
    intro a ha
    simp only [safeScoreOfResult, safeScore]
    rw [if_pos ha, if_pos ha]
    simp

/-- C5: for every valid input, `recommendedAction` is the EV argmax over
the computed action set with first-seen tie-break, and
`safeRecommendedAction` is the argmax of `EV − 0.10 × lossProb` over the
same set with the same tie-break. -/
theorem calculateDecision_recommendations (input : DecisionInput)
    (hvalid : (calculateDecision input).valid = true) :
    (calculateDecision input).recommendedAction =
      firstMaxBy (fun a => ((calculateDecision input).evByAction a).getD ⊥)
        (decisionActions input.playerCards (normalizeRules input.rules)) ∧
    (calculateDecision input).safeRecommendedAction =
      firstMaxBy (safeScoreOfResult (calculateDecision input))
        (decisionActions input.playerCards (normalizeRules input.rules)) := by
  rcases hup : input.dealerUpcard with _ | u
  · simp [calculateDecision, hup, emptyResult] at hvalid
  · by_cases hlen : input.playerCards.length < 2
    · simp [calculateDecision, hup, hlen, emptyResult] at hvalid
    · by_cases hbust : 21 < (handValue input.playerCards).total
      · simp [calculateDecision, hup, hlen, hbust, emptyResult] at hvalid
      · rcases hrem : removeObserved
            (input.playerCards ++ u :: input.tableSeenCards)
            (toShoeCounts (normalizeRules input.rules).decks) 0 with _ | p
        · simp [calculateDecision, hup, hlen, hbust, hrem, emptyResult]
            at hvalid
        · have hcd : calculateDecision input =
              decisionCore input.playerCards u p.1 p.2
                (normalizeRules input.rules) := by
            simp [calculateDecision, hup, hlen, hbust, hrem]
          rw [hcd]
          exact decisionCore_recommendations _ _ _ _ _

/-- Witness for C5 at the valid input {10,7} versus a ten upcard. -/
theorem calculateDecision_recommendations_witness :
    (calculateDecision standardInput).recommendedAction =
      firstMaxBy
        (fun a => ((calculateDecision standardInput).evByAction a).getD ⊥)
        (decisionActions standardInput.playerCards
          (normalizeRules standardInput.rules)) ∧
    (calculateDecision standardInput).safeRecommendedAction =
      firstMaxBy (safeScoreOfResult (calculateDecision standardInput))
        (decisionActions standardInput.playerCards
          (normalizeRules standardInput.rules)) :=
  calculateDecision_recommendations standardInput (by decide)

/-! ### C2 — the validity gate -/

/-- Sequential removal of the observed cards fails exactly when some
rank is observed more often than it exists in the shoe. -/
theorem removeObserved_none_iff :
    ∀ (l : List Rank) (counts : ShoeCounts) (rc : ℤ),
      removeObserved l counts rc = none ↔ ∃ r, counts r < l.count r := by
  intro l
  induction l with
  | nil =>
    intro counts rc
    simp [removeObserved]
  | cons c rest ih =>
    intro counts rc
    by_cases hc : counts c ≤ 0
    · have h0 : counts c = 0 := by omega
      simp only [removeObserved, removeCard, if_pos hc]
      constructor
      · intro _
        exact ⟨c, by simp [List.count_cons, h0]⟩
      · intro _
        simp
    · have hpos : 0 < counts c := by omega
      simp only [removeObserved, removeCard, if_neg hc, if_true]
      rw [ih (Function.update counts c (counts c - 1)) (rc + hiLoTag c)]
      constructor
      · rintro ⟨r, hr⟩
        by_cases hrc : r = c
        · subst hrc
          rw [Function.update_same] at hr
          exact ⟨r, by simp [List.count_cons]; omega⟩
        · rw [Function.update_noteq hrc] at hr
          exact ⟨r, by simp [List.count_cons, hrc]; omega⟩
      · rintro ⟨r, hr⟩
        by_cases hrc : r = c
        · subst hrc
          refine ⟨r, ?_⟩
          rw [Function.update_same]
          simp [List.count_cons] at hr
          omega
        · refine ⟨r, ?_⟩
          rw [Function.update_noteq hrc]
          simp [List.count_cons, hrc] at hr
          omega

theorem overflow_iff (input : DecisionInput) (u : Rank)
    (hup : input.dealerUpcard = some u) :
    (removeObserved (input.playerCards ++ u :: input.tableSeenCards)
        (toShoeCounts (normalizeRules input.rules).decks) 0 = none ↔
      ∃ r, 4 * (normalizeRules input.rules).decks <
        (observedCards input).count r) := by
  rw [removeObserved_none_iff]
  have hlist : observedCards input =
      input.playerCards ++ u :: input.tableSeenCards := by
    simp [observedCards, hup]
  rw [hlist]
  constructor
  · rintro ⟨r, hr⟩
    exact ⟨r, by simpa [toShoeCounts] using hr⟩
  · rintro ⟨r, hr⟩
    exact ⟨r, by simpa [toShoeCounts] using hr⟩

/-- C2 (amended): `calculateDecision` is invalid exactly for the four
gate conditions, checked in source order (witnessed by the messages);
every invalid result carries a message, `runningCount = 0`,
`trueCount = 0`, empty per-action maps — and `decksRemaining` equal to
the normalized deck count (not 0 as the claim stated). -/
theorem calculateDecision_validity (input : DecisionInput) :
    ((calculateDecision input).valid = false ↔
      (input.dealerUpcard = none ∨ input.playerCards.length < 2 ∨
        21 < (handValue input.playerCards).total ∨
        ∃ r, 4 * (normalizeRules input.rules).decks <
          (observedCards input).count r)) ∧
    ((calculateDecision input).valid = false →
      (calculateDecision input).runningCount = 0 ∧
      (calculateDecision input).trueCount = 0 ∧
      (calculateDecision input).decksRemaining =
        ((normalizeRules input.rules).decks : ℚ) ∧
      (∃ msg, (calculateDecision input).message = some msg) ∧
      (calculateDecision input).evByAction = (fun _ => none) ∧
      (calculateDecision input).winRateByAction = (fun _ => none) ∧
      (calculateDecision input).lossRateByAction = (fun _ => none)) ∧
    (input.dealerUpcard = none →
      (calculateDecision input).message =
        some "Select the dealer upcard to start.") ∧
    (input.dealerUpcard ≠ none → input.playerCards.length < 2 →
      (calculateDecision input).message =
        some "Add your first two cards to evaluate actions.") ∧
    (input.dealerUpcard ≠ none → ¬ input.playerCards.length < 2 →
      21 < (handValue input.playerCards).total →
      (calculateDecision input).message =
        some "Player bust. Hand is over.") ∧
    (input.dealerUpcard ≠ none → ¬ input.playerCards.length < 2 →
      ¬ 21 < (handValue input.playerCards).total →
      (∃ r, 4 * (normalizeRules input.rules).decks <
        (observedCards input).count r) →
      (calculateDecision input).message =
        some "Observed cards exceed available cards for selected deck count.") := by
  rcases hup : input.dealerUpcard with _ | u
  · have hcd : calculateDecision input = emptyResult
        (normalizeRules input.rules) "Select the dealer upcard to start." := by
      simp [calculateDecision, hup]
    rw [hcd]
    exact ⟨by simp [emptyResult], fun _ => by simp [emptyResult],
      fun _ => by simp [emptyResult], fun h => absurd rfl h,
      fun h => absurd rfl h, fun h => absurd rfl h⟩
  · by_cases hlen : input.playerCards.length < 2
    · have hcd : calculateDecision input = emptyResult
          (normalizeRules input.rules)
          "Add your first two cards to evaluate actions." := by
        simp [calculateDecision, hup, hlen]
      rw [hcd]
      exact ⟨by simp [emptyResult, hlen], fun _ => by simp [emptyResult],
        fun h => by simp at h, fun _ _ => by simp [emptyResult],
        fun _ h => absurd hlen h, fun _ h => absurd hlen h⟩
    · by_cases hbust : 21 < (handValue input.playerCards).total
      · have hcd : calculateDecision input = emptyResult
            (normalizeRules input.rules) "Player bust. Hand is over." := by
          simp [calculateDecision, hup, hlen, hbust]
        rw [hcd]
        exact ⟨by simp [emptyResult, hbust], fun _ => by simp [emptyResult],
          fun h => by simp at h, fun _ h => absurd h hlen,
          fun _ _ _ => by simp [emptyResult], fun _ _ h => absurd hbust h⟩
      · rcases hrem : removeObserved
            (input.playerCards ++ u :: input.tableSeenCards)
            (toShoeCounts (normalizeRules input.rules).decks) 0 with _ | p
        · have hcd : calculateDecision input = emptyResult
              (normalizeRules input.rules)
              "Observed cards exceed available cards for selected deck count." := by
            simp [calculateDecision, hup, hlen, hbust, hrem]
          have hover : ∃ r, 4 * (normalizeRules input.rules).decks <
              (observedCards input).count r :=
            (overflow_iff input u hup).mp hrem
          rw [hcd]
          exact ⟨by simp [emptyResult, hover], fun _ => by simp [emptyResult],
            fun h => by simp at h, fun _ h => absurd h hlen,
            fun _ _ h => absurd h hbust, fun _ _ _ _ => by simp [emptyResult]⟩
        · have hcd : calculateDecision input =
              decisionCore input.playerCards u p.1 p.2
                (normalizeRules input.rules) := by
            simp [calculateDecision, hup, hlen, hbust, hrem]
          have hnover : ¬ ∃ r, 4 * (normalizeRules input.rules).decks <
              (observedCards input).count r := by
            intro hover
            rw [← overflow_iff input u hup] at hover
            rw [hover] at hrem
            cases hrem
          rw [hcd]
          have hval : (decisionCore input.playerCards u p.1 p.2
              (normalizeRules input.rules)).valid = true := by
            simp [decisionCore]
          refine ⟨?_, ?_, fun h => by simp at h, fun _ h => absurd h hlen,
            fun _ _ h => absurd h hbust, fun _ _ _ h => absurd h hnover⟩
          · rw [hval]
            simp only [Bool.true_eq_false, false_iff]
            rintro (h | h | h | h)
            · simp at h
            · exact hlen h
            · exact hbust h
            · exact hnover h
          · intro h
            rw [hval] at h
            cases h

/-- Witness for C2 at an input with no dealer upcard. -/
theorem calculateDecision_validity_witness :
    (calculateDecision noUpcardInput).message =
      some "Select the dealer upcard to start." ∧
    (calculateDecision noUpcardInput).decksRemaining =
      ((normalizeRules noUpcardInput.rules).decks : ℚ) ∧
    (calculateDecision noUpcardInput).evByAction = (fun _ => none) :=
  ⟨(calculateDecision_validity noUpcardInput).2.2.1 rfl,
   ((calculateDecision_validity noUpcardInput).2.1 (by decide)).2.2.1,
   ((calculateDecision_validity noUpcardInput).2.1 (by decide)).2.2.2.2.1⟩

/-- C2 counterexample: an invalid result does not zero `decksRemaining`
— it reports the normalized deck count (here 1). -/
theorem calculateDecision_decksRemaining_claim_false :
    (calculateDecision noUpcardInput).valid = false ∧
    (calculateDecision noUpcardInput).decksRemaining ≠ 0 := by
  constructor
  · decide
  · decide

/-! ### C9 — determinism of the solver -/

/-- C9: the engine is a pure function of its input — two calls on equal
inputs return identical results for every action (in this version even
the split evaluator is analytic, so no action is excepted). -/
theorem calculateDecision_deterministic (i j : DecisionInput)
    (h : i = j) : calculateDecision i = calculateDecision j := by
  rw [h]

/-- Witness for C9: the two calls at a concrete input agree. -/
theorem calculateDecision_deterministic_witness :
    calculateDecision standardInput = calculateDecision standardInput :=
  calculateDecision_deterministic standardInput standardInput rfl

/-! ### C10 — the solver does not mutate its input -/

/-- The observed-card removal loop writes only the composition cell it
was given; off-cell contents, the heap length, and the pure
`removeObserved` result are preserved. -/
theorem removeObservedH_spec (l : List Rank) :
    ∀ (ref : ℕ) (rc : ℤ) (h : Heap), ref < h.length →
      (∀ j, j ≠ ref → ((removeObservedH l ref rc h).2)[j]? = h[j]?) ∧
      ((removeObservedH l ref rc h).2).length = h.length ∧
      (match removeObserved l (readCounts h ref) rc with
       | none => (removeObservedH l ref rc h).1 = none
       | some p => (removeObservedH l ref rc h).1 = some p.2 ∧
           readCounts ((removeObservedH l ref rc h).2) ref = p.1) := by
  induction l with
  | nil =>
    intro ref rc h href
    refine ⟨fun j _ => rfl, rfl, ?_⟩
    simp [removeObserved, removeObservedH]
  | cons card rest ih =>
    intro ref rc h href
    have hread2 : readCounts
        (writeCell h ref (.counts (removeCard (readCounts h ref) card).2))
        ref = (removeCard (readCounts h ref) card).2 := by
      unfold readCounts writeCell
      rw [List.getElem?_set_self]
      · simp [href]
    have hlen2 : (writeCell h ref
        (.counts (removeCard (readCounts h ref) card).2)).length =
        h.length := List.length_set _ _ _
    have hother2 : ∀ j, j ≠ ref → (writeCell h ref
        (.counts (removeCard (readCounts h ref) card).2))[j]? = h[j]? := by
      intro j hj
      exact List.getElem?_set_ne (fun hc => hj hc.symm)
    by_cases hok : (removeCard (readCounts h ref) card).1 = true
    · have hrec := ih ref (rc + hiLoTag card)
        (writeCell h ref (.counts (removeCard (readCounts h ref) card).2))
        (by rw [hlen2]; exact href)
      rw [hread2] at hrec
      constructor
      · intro j hj
        have : (removeObservedH (card :: rest) ref rc h) =
            removeObservedH rest ref (rc + hiLoTag card)
              (writeCell h ref
                (.counts (removeCard (readCounts h ref) card).2)) := by
          simp only [removeObservedH, hok, if_true]
        rw [this]
        rw [hrec.1 j hj]
        exact hother2 j hj
      · constructor
        · have : (removeObservedH (card :: rest) ref rc h) =
              removeObservedH rest ref (rc + hiLoTag card)
                (writeCell h ref
                  (.counts (removeCard (readCounts h ref) card).2)) := by
            simp only [removeObservedH, hok, if_true]
          rw [this, hrec.2.1, hlen2]
        · have heqH : (removeObservedH (card :: rest) ref rc h) =
              removeObservedH rest ref (rc + hiLoTag card)
                (writeCell h ref
                  (.counts (removeCard (readCounts h ref) card).2)) := by
            simp only [removeObservedH, hok, if_true]
          have heqP : removeObserved (card :: rest) (readCounts h ref) rc =
              removeObserved rest (removeCard (readCounts h ref) card).2
                (rc + hiLoTag card) := by
            simp only [removeObserved, hok, if_true]
          rw [heqH, heqP]
          exact hrec.2.2
    · have hkoH : (removeObservedH (card :: rest) ref rc h) =
          (none, writeCell h ref
            (.counts (removeCard (readCounts h ref) card).2)) := by
        simp only [removeObservedH, hok]
        simp
      have hkoP : removeObserved (card :: rest) (readCounts h ref) rc =
          none := by
        simp only [removeObserved, hok]
        simp
      rw [hkoH, hkoP]
      exact ⟨hother2, hlen2, rfl⟩

end Blackjack

namespace Blackjack


/-- C10: in the heap semantics, `calculateDecision` leaves every
pre-existing heap cell unchanged — in particular the player-cards and
seen-cards arrays — writing only the freshly allocated composition
cell, and returns exactly the pure `calculateDecision` of the values
read from the heap. -/
theorem calculateDecisionH_frame (h : Heap) (pcRef seenRef : ℕ)
    (dealerUpcard : Option Rank) (rules : Rules)
    (hpc : pcRef < h.length) (hseen : seenRef < h.length) :
    (∀ j, j < h.length →
      ((calculateDecisionH h pcRef seenRef dealerUpcard rules).2)[j]? =
        h[j]?) ∧
    (calculateDecisionH h pcRef seenRef dealerUpcard rules).1 =
      calculateDecision
        ⟨readCards h pcRef, dealerUpcard, readCards h seenRef, rules,
         none⟩ := by
  rcases dealerUpcard with _ | u
  · exact ⟨fun j _ => rfl, rfl⟩
  · by_cases hlen : (readCards h pcRef).length < 2
    · refine ⟨fun j _ => ?_, ?_⟩
      · simp [calculateDecisionH, hlen]
      · simp [calculateDecisionH, calculateDecision, hlen]
    · by_cases hbust : 21 < (handValue (readCards h pcRef)).total
      · refine ⟨fun j _ => ?_, ?_⟩
        · simp [calculateDecisionH, hlen, hbust]
        · simp [calculateDecisionH, calculateDecision, hlen, hbust]
      · have hseen1 : readCards
            (h ++ [HCell.counts (toShoeCounts (normalizeRules rules).decks)])
            seenRef = readCards h seenRef := by
          unfold readCards
          rw [List.getElem?_append_left hseen]
        have hinit : readCounts
            (h ++ [HCell.counts (toShoeCounts (normalizeRules rules).decks)])
            h.length = toShoeCounts (normalizeRules rules).decks := by
          unfold readCounts
          rw [List.getElem?_concat_length]
        have hreflen : h.length <
            (h ++ [HCell.counts
              (toShoeCounts (normalizeRules rules).decks)]).length := by
          simp
        have spec := removeObservedH_spec
          (readCards h pcRef ++ u :: readCards h seenRef) h.length 0
          (h ++ [HCell.counts (toShoeCounts (normalizeRules rules).decks)])
          hreflen
        rw [hinit] at spec
        rcases hro : removeObservedH
            (readCards h pcRef ++ u :: readCards h seenRef) h.length 0
            (h ++ [HCell.counts (toShoeCounts (normalizeRules rules).decks)])
          with ⟨o, h2⟩
        rw [hro] at spec
        obtain ⟨hframe, hlen2, hmatch⟩ := spec
        have hframe0 : ∀ j, j < h.length → h2[j]? = h[j]? := by
          intro j hj
          have h1 : h2[j]? =
              (h ++ [HCell.counts
                (toShoeCounts (normalizeRules rules).decks)])[j]? :=
            hframe j (by omega)
          rw [h1, List.getElem?_append_left hj]
        rcases hpo : removeObserved
            (readCards h pcRef ++ u :: readCards h seenRef)
            (toShoeCounts (normalizeRules rules).decks) 0 with _ | p
        · rw [hpo] at hmatch
          have ho : o = none := hmatch
          subst ho
          refine ⟨?_, ?_⟩
          · intro j hj
            have hhH : (calculateDecisionH h pcRef seenRef (some u) rules).2 =
                h2 := by
              simp [calculateDecisionH, hlen, hbust, allocCell, hseen1, hro]
            rw [hhH]
            exact hframe0 j hj
          · have hhH : (calculateDecisionH h pcRef seenRef (some u) rules).1 =
                emptyResult (normalizeRules rules)
                  "Observed cards exceed available cards for selected deck count." := by
              simp [calculateDecisionH, hlen, hbust, allocCell, hseen1, hro]
            rw [hhH]
            have hhP : calculateDecision
                ⟨readCards h pcRef, some u, readCards h seenRef, rules,
                 none⟩ = emptyResult (normalizeRules rules)
                  "Observed cards exceed available cards for selected deck count." := by
              simp [calculateDecision, hlen, hbust, hpo]
            rw [hhP]
        · rw [hpo] at hmatch
          obtain ⟨ho, hcounts⟩ := hmatch
          subst ho
          refine ⟨?_, ?_⟩
          · intro j hj
            have hhH : (calculateDecisionH h pcRef seenRef (some u) rules).2 =
                h2 := by
              simp [calculateDecisionH, hlen, hbust, allocCell, hseen1, hro]
            rw [hhH]
            exact hframe0 j hj
          · have hhH : (calculateDecisionH h pcRef seenRef (some u) rules).1 =
                decisionCore (readCards h pcRef) u (readCounts h2 h.length)
                  p.2 (normalizeRules rules) := by
              simp [calculateDecisionH, hlen, hbust, allocCell, hseen1, hro]
            rw [hhH, hcounts]
            have hhP : calculateDecision
                ⟨readCards h pcRef, some u, readCards h seenRef, rules,
                 none⟩ = decisionCore (readCards h pcRef) u p.1 p.2
                  (normalizeRules rules) := by
              simp [calculateDecision, hlen, hbust, hpo]
            rw [hhP]

/-- Witness for C10 on a two-cell heap holding the input arrays. -/
theorem calculateDecisionH_frame_witness :
    (∀ j, j < ([HCell.cards [Rank.ten, Rank.seven],
        HCell.cards []] : Heap).length →
      ((calculateDecisionH [HCell.cards [Rank.ten, Rank.seven],
          HCell.cards []] 0 1 (some Rank.ten) standardInput.rules).2)[j]? =
        ([HCell.cards [Rank.ten, Rank.seven],
          HCell.cards []] : Heap)[j]?) ∧
    (calculateDecisionH [HCell.cards [Rank.ten, Rank.seven],
        HCell.cards []] 0 1 (some Rank.ten) standardInput.rules).1 =
      calculateDecision
        ⟨readCards [HCell.cards [Rank.ten, Rank.seven], HCell.cards []] 0,
         some Rank.ten,
         readCards [HCell.cards [Rank.ten, Rank.seven], HCell.cards []] 1,
         standardInput.rules, none⟩ :=
  calculateDecisionH_frame [HCell.cards [Rank.ten, Rank.seven],
    HCell.cards []] 0 1 (some Rank.ten) standardInput.rules
    (by decide) (by decide)

end Blackjack
